import Mathlib

/-!
Verification of the privacy-transaction construction engine of the
chain33 wallet (source file `wallet/privacy.go`).  Each Go function the
claims depend on is embedded as an executable Lean definition; machine
integers (`int64`, `int32`) are modelled as `ℤ` (or `ℕ` where the Go
values are provably non-negative), with an explicit two's-complement
wrap (`wrap64`) at every operation that can overflow on a reachable
input, and explicit remarks wherever overflow or floating-point
rounding matters.
-/

/-! ## int64 semantics -/

/-- Two's-complement wrap-around of a mathematical integer into the
`int64` range, modelling Go's defined signed-overflow behaviour. -/
def wrap64 (x : ℤ) : ℤ := (x + 2 ^ 63) % 2 ^ 64 - 2 ^ 63

/-- Values already inside the `int64` range are fixed by the wrap. -/
theorem wrap64_eq_self (x : ℤ) (h1 : -(2 ^ 63) ≤ x) (h2 : x < 2 ^ 63) :
    wrap64 x = x := by
  unfold wrap64
  omega

/-! ## Amount decomposer

Embeds `decomAmount2Nature` and `decomposeAmount2digits` from
`wallet/privacy.go` (lines 747-821) with `int64` semantics.  Go's `/`
and `%` on `int64` truncate toward zero (`Int.tdiv`, `Int.tmod`), and
every arithmetic operation wraps on overflow.  For any `int64` amount
(`|amount| < 2^63 < 10^19`, hence at most 19 decimal digits) the loop
runs at most 19 iterations, so the executed values are:

* `order` is `10^(k-1)` in iteration `k ≤ 19`; the update `order *= 10`
  overflows exactly in iteration 19 (`10^19 ≥ 2^63`), and the wrapped
  value IS read in the same iteration as `order/10`, so the update is
  modelled as `wrap64 (order * 10)`;
* `chunk = (amount % 10) * order` uses the pre-update `order ≤ 10^18`,
  so `chunk ≤ 9·10^18 < 2^63` never wraps;
* `dust` and `dust + chunk` are sums of distinct digit contributions
  of the original amount, hence at most `amount < 2^63`: no wrap.

These in-range facts hold for EVERY `int64` input of
`decomposeAmount2digits` (not merely for the domains of the theorems
below), so only the `order` update carries a `wrap64`. -/

/-- Embedding of `decomAmount2Nature(amount, order int64) []int64`:
split `amount = mul·order` into the canonical 1/2/5 break-down of
`mul := amount / order` (truncated division; the Go `switch` is an
if-chain).  For every call reachable from `decomposeAmount2digits` the
products fit in `int64` and need no wrap: either `order = 10^k` with
`k ≤ 17` and `mul ≤ 9` (products `≤ 5·10^17·9`), or — in the wrapped
19th iteration — `order = -844674407370955161` and
`mul ∈ [-10, -1]`, so every product has magnitude at most
`8446744073709551610 < 2^63`. -/
def decomAmount2Nature (amount order : ℤ) : List ℤ :=
  if order = 0 then []
  else if amount.tdiv order = 3 then [order, 2 * order]
  else if amount.tdiv order = 4 then [2 * order, 2 * order]
  else if amount.tdiv order = 6 then [5 * order, order]
  else if amount.tdiv order = 7 then [5 * order, 2 * order]
  else if amount.tdiv order = 8 then [5 * order, 2 * order, 1 * order]
  else if amount.tdiv order = 9 then [5 * order, 2 * order, 2 * order]
  else [amount.tdiv order * order]

/-- The digit-walking loop of `decomposeAmount2digits` with `int64`
semantics.  The Go `for` loop runs while `amount != 0`, dividing
`amount` by 10 each round; we give it structural `fuel` (64 suffices
for any `int64`).  The Go locals are inlined: `chunk` is
`amount.tmod 10 * order`, the updated `order` is `wrap64 (order * 10)`
— the one operation that overflows on reachable inputs, see the
section comment — and `decomAmount2Nature` receives
`(wrap64 (order * 10)).tdiv 10` exactly as the source passes
`order/10` AFTER the update; appending nothing when `chunk = 0` is
written as appending `[]`.  When `amount = 0` the loop exits and the
trailing `if !is_dust_handled && 0 != dust` of the Go function appends
the pending dust. -/
def decomLoop (t : ℤ) : ℕ → ℤ → ℤ → ℤ → Bool → List ℤ → List ℤ
  | 0, _, dust, _, handled, res =>
      if handled = false ∧ dust ≠ 0 then res ++ [dust] else res
  | fuel + 1, amount, dust, order, handled, res =>
      if amount = 0 then
        (if handled = false ∧ dust ≠ 0 then res ++ [dust] else res)
      else if dust + amount.tmod 10 * order < t then
        decomLoop t fuel (amount.tdiv 10) (dust + amount.tmod 10 * order)
          (wrap64 (order * 10)) handled res
      else
        decomLoop t fuel (amount.tdiv 10) dust (wrap64 (order * 10))
          (if handled = false ∧ dust ≠ 0 then true else handled)
          ((if handled = false ∧ dust ≠ 0 then res ++ [dust] else res) ++
            (if amount.tmod 10 * order ≠ 0 then
              decomAmount2Nature (amount.tmod 10 * order)
                ((wrap64 (order * 10)).tdiv 10)
            else []))

/-- Embedding of `decomposeAmount2digits(amount, dust_threshold int64)
[]int64`.  The Go guard `if 0 >= amount` returns the empty slice; for
a positive amount the digit loop starts with `dust = 0`, `order = 1`,
`is_dust_handled = false`. -/
def decomposeAmount2digits (amount t : ℤ) : List ℤ :=
  if amount ≤ 0 then [] else decomLoop t 64 amount 0 1 false []

/-! ### Wrap-free reference model

For amounts below `10^18` (at most 18 digits) the loop never reaches
the overflowing 19th iteration, and the program computes in plain
non-negative integers.  The following `ℕ`-valued model captures that
wrap-free computation; the bridge lemmas below prove that the `int64`
embedding agrees with it on `amount < 10^18`, and the sum/shape
invariants are established on the model. -/
/-- Wrap-free reference model of `decomAmount2Nature` over `ℕ` (Go's
`/` on non-negative `int64` agrees with `ℕ` division). -/
def decomAmount2NatureNat (amount order : ℕ) : List ℕ :=
  if order = 0 then []
  else
    match amount / order with
    | 3 => [order, 2 * order]
    | 4 => [2 * order, 2 * order]
    | 6 => [5 * order, order]
    | 7 => [5 * order, 2 * order]
    | 8 => [5 * order, 2 * order, 1 * order]
    | 9 => [5 * order, 2 * order, 2 * order]
    | mul => [mul * order]

/-- Wrap-free reference model of the digit loop over `ℕ`, structured
exactly like `decomLoop` (same fuel, same inlined locals) but with
unbounded naturals in place of wrapping `int64` values. -/
def decomLoopNat (t : ℤ) : ℕ → ℕ → ℕ → ℕ → Bool → List ℕ → List ℕ
  | _, 0, dust, _, handled, res =>
      if handled = false ∧ dust ≠ 0 then res ++ [dust] else res
  | 0, _ + 1, dust, _, handled, res =>
      if handled = false ∧ dust ≠ 0 then res ++ [dust] else res
  | fuel + 1, a + 1, dust, order, handled, res =>
      if ((dust + (a + 1) % 10 * order : ℕ) : ℤ) < t then
        decomLoopNat t fuel ((a + 1) / 10) (dust + (a + 1) % 10 * order) (order * 10)
          handled res
      else
        decomLoopNat t fuel ((a + 1) / 10) dust (order * 10)
          (if handled = false ∧ dust ≠ 0 then true else handled)
          ((if handled = false ∧ dust ≠ 0 then res ++ [dust] else res) ++
            (if (a + 1) % 10 * order ≠ 0 then
              decomAmount2NatureNat ((a + 1) % 10 * order) (order * 10 / 10)
            else []))

/-- Wrap-free reference model of `decomposeAmount2digits`: the same
guard and initial state, over the `ℕ` loop. -/
def decomposeAmountNat (amount t : ℤ) : List ℕ :=
  if amount ≤ 0 then [] else decomLoopNat t 64 amount.toNat 0 1 false []

/-! ### Sum preservation -/

/-- The function `decomAmount2NatureNat` preserves the amount whenever `amount` is an
exact multiple of a positive `order`, which is how the loop calls it. -/
theorem decomAmount2NatureNatNat_sum (amount order : ℕ) (ho : 0 < order)
    (hd : order ∣ amount) :
    (decomAmount2NatureNat amount order).sum = amount := by
  obtain ⟨d, rfl⟩ := hd
  have hON : order ≠ 0 := Nat.pos_iff_ne_zero.mp ho
  have hmul : order * d / order = d := Nat.mul_div_cancel_left d ho
  unfold decomAmount2NatureNat
  simp only [hON, if_false, hmul]
  match d with
  | 0 => simp
  | 1 => simp [List.sum]; try ring
  | 2 => simp [List.sum]; try ring
  | 3 => simp [List.sum]; try ring
  | 4 => simp [List.sum]; try ring
  | 5 => simp [List.sum]; try ring
  | 6 => simp [List.sum]; try ring
  | 7 => simp [List.sum]; try ring
  | 8 => simp [List.sum]; try ring
  | 9 => simp [List.sum]; try ring
  | n + 10 => simp [List.sum]; try ring

/-- Master sum invariant for the digit loop.  The side condition on
`handled` records that once the dust has been emitted, every later
non-zero chunk is at least `order` and therefore can never re-enter the
dust accumulator (so no amount is ever lost). -/
theorem decomLoopNatNat_sum (t : ℤ) :
    ∀ (fuel amount dust order : ℕ) (handled : Bool) (res : List ℕ),
    amount < 10 ^ fuel → 0 < order →
    (handled = true → t ≤ (dust : ℤ) + (order : ℤ)) →
    (decomLoopNat t fuel amount dust order handled res).sum
      + (if handled then dust else 0) = res.sum + dust + amount * order := by
  intro fuel
  induction fuel with
  | zero =>
      intro amount dust order handled res hfuel _ _
      have hA : amount = 0 := by simpa using hfuel
      subst hA
      cases handled with
      | false =>
          by_cases hdz : dust = 0 <;> simp [decomLoopNat, hdz, List.sum_append]
      | true => simp [decomLoopNat]
  | succ fuel ih =>
      intro amount dust order handled res hfuel horder hinv
      match amount with
      | 0 =>
          cases handled with
          | false =>
              by_cases hdz : dust = 0 <;> simp [decomLoopNat, hdz, List.sum_append]
          | true => simp [decomLoopNat]
      | a + 1 =>
          rw [decomLoopNat]
          have hqr : 10 * ((a + 1) / 10) + (a + 1) % 10 = a + 1 :=
            Nat.div_add_mod (a + 1) 10
          have hsplit : (a + 1) % 10 * order + (a + 1) / 10 * (order * 10)
              = (a + 1) * order := by
            conv_rhs => rw [← hqr]
            ring
          have hdig : (a + 1) % 10 ≤ 9 := by omega
          have ha2 : (a + 1) / 10 < 10 ^ fuel := by
            rw [Nat.div_lt_iff_lt_mul (by norm_num : (0:ℕ) < 10)]
            calc a + 1 < 10 ^ (fuel + 1) := hfuel
              _ = 10 ^ fuel * 10 := by rw [pow_succ]
          have hchub : (a + 1) % 10 * order ≤ 9 * order :=
            Nat.mul_le_mul_right order hdig
          by_cases hlt : ((dust + (a + 1) % 10 * order : ℕ) : ℤ) < t
          · -- dust-accumulation branch
            rw [if_pos hlt]
            have hinv2 : handled = true →
                t ≤ ((dust + (a + 1) % 10 * order : ℕ) : ℤ) + ((order * 10 : ℕ) : ℤ) := by
              intro hh
              have h1 := hinv hh
              have hp : (0:ℤ) ≤ (((a + 1) % 10 * order : ℕ) : ℤ) := by positivity
              push_cast at h1 hp ⊢
              omega
            have hrec := ih ((a + 1) / 10) (dust + (a + 1) % 10 * order) (order * 10)
              handled res ha2 (by positivity) hinv2
            cases handled with
            | false =>
                simp only [Bool.false_eq_true, if_false] at hrec ⊢
                omega
            | true =>
                -- once the dust was emitted, a chunk small enough to be
                -- accumulated must be zero
                have hch0 : (a + 1) % 10 * order = 0 := by
                  by_contra hne
                  have hr : 0 < (a + 1) % 10 := by
                    rcases Nat.eq_zero_or_pos ((a + 1) % 10) with h | h
                    · exact absurd (by simp [h]) hne
                    · exact h
                  have hle : order ≤ (a + 1) % 10 * order :=
                    Nat.le_mul_of_pos_left order hr
                  have h1 := hinv rfl
                  have hle2 : ((order : ℕ) : ℤ) ≤ (((a + 1) % 10 * order : ℕ) : ℤ) := by
                    exact_mod_cast hle
                  push_cast at hlt h1 hle2
                  omega
                simp only [if_true] at hrec ⊢
                omega
          · -- dust-emission branch
            rw [if_neg hlt]
            have hemit : t ≤ ((dust : ℕ) : ℤ) + (((a + 1) % 10 * order : ℕ) : ℤ) := by
              push_cast at hlt ⊢
              omega
            have ho10 : order * 10 / 10 = order := by omega
            have hnatsum :
                (if (a + 1) % 10 * order ≠ 0 then
                  decomAmount2NatureNat ((a + 1) % 10 * order) (order * 10 / 10)
                else []).sum = (a + 1) % 10 * order := by
              by_cases hck : (a + 1) % 10 * order ≠ 0
              · rw [if_pos hck, ho10]
                exact decomAmount2NatureNatNat_sum _ order horder ⟨(a + 1) % 10, by ring⟩
              · rw [if_neg hck]
                simp only [List.sum_nil]
                omega
            have hchub2 : (((a + 1) % 10 * order : ℕ) : ℤ) ≤ ((9 * order : ℕ) : ℤ) := by
              exact_mod_cast hchub
            cases handled with
            | true =>
                have hcond : ¬ (true = false ∧ dust ≠ 0) := by simp
                simp only [if_neg hcond]
                have h1 := hinv rfl
                have hinv2 : true = true → t ≤ (dust : ℤ) + ((order * 10 : ℕ) : ℤ) := by
                  intro _
                  have hordnn : (0:ℤ) ≤ (order : ℤ) := by positivity
                  push_cast at h1 ⊢
                  omega
                have hrec := ih ((a + 1) / 10) dust (order * 10) true
                  (res ++
                    (if (a + 1) % 10 * order ≠ 0 then
                      decomAmount2NatureNat ((a + 1) % 10 * order) (order * 10 / 10)
                    else []))
                  ha2 (by positivity) hinv2
                rw [List.sum_append, hnatsum] at hrec
                simp only [if_true] at hrec ⊢
                omega
            | false =>
                by_cases hdz : dust = 0
                · have hcond : ¬ (false = false ∧ dust ≠ 0) := by simp [hdz]
                  rw [if_neg hcond, if_neg hcond]
                  have hinv2 : false = true → t ≤ (dust : ℤ) + ((order * 10 : ℕ) : ℤ) := by
                    intro hh
                    exact absurd hh (by simp)
                  have hrec := ih ((a + 1) / 10) dust (order * 10) false
                    (res ++
                      (if (a + 1) % 10 * order ≠ 0 then
                        decomAmount2NatureNat ((a + 1) % 10 * order) (order * 10 / 10)
                      else []))
                    ha2 (by positivity) hinv2
                  rw [List.sum_append, hnatsum] at hrec
                  simp only [Bool.false_eq_true, if_false] at hrec ⊢
                  omega
                · have hcond : (false = false ∧ dust ≠ 0) := ⟨rfl, hdz⟩
                  rw [if_pos hcond, if_pos hcond]
                  have hinv2 : true = true → t ≤ (dust : ℤ) + ((order * 10 : ℕ) : ℤ) := by
                    intro _
                    push_cast at hemit hchub2 ⊢
                    omega
                  have hrec := ih ((a + 1) / 10) dust (order * 10) true
                    ((res ++ [dust]) ++
                      (if (a + 1) % 10 * order ≠ 0 then
                        decomAmount2NatureNat ((a + 1) % 10 * order) (order * 10 / 10)
                      else []))
                    ha2 (by positivity) hinv2
                  rw [List.sum_append, hnatsum, List.sum_append] at hrec
                  simp only [List.sum_cons, List.sum_nil, if_true] at hrec
                  simp only [Bool.false_eq_true, if_false]
                  omega

/-- C1 auxiliary: the full sum identity for `decomposeAmountNat`. -/
theorem decomposeAmountNat_sum (amount t : ℤ) (h0 : 0 ≤ amount)
    (h63 : amount < 2 ^ 63) :
    ((decomposeAmountNat amount t).sum : ℤ) = amount := by
  unfold decomposeAmountNat
  rcases lt_or_eq_of_le h0 with hpos | hzero
  · have hnle : ¬ amount ≤ 0 := by omega
    rw [if_neg hnle]
    have hbound : amount.toNat < 10 ^ 64 := by
      have h1 : (2 : ℤ) ^ 63 < 10 ^ 64 := by norm_num
      omega
    have hmain := decomLoopNatNat_sum t 64 amount.toNat 0 1 false [] hbound (by norm_num)
      (by intro h; simp at h)
    simp only [Bool.false_eq_true, if_false, List.sum_nil] at hmain
    have hsum : (decomLoopNat t 64 amount.toNat 0 1 false []).sum = amount.toNat := by
      omega
    rw [hsum]
    omega
  · rw [if_pos (by omega)]
    simp [← hzero]

/-! ### Element shapes -/

/-- Every element produced by `decomAmount2NatureNat` for a one-digit
multiple of `order` is `order`, `2·order` or `5·order`. -/
theorem decomAmount2NatureNatNat_mem (order d : ℕ) (ho : 0 < order)
    (hd1 : 1 ≤ d) (hd9 : d ≤ 9) :
    ∀ e ∈ decomAmount2NatureNat (d * order) order,
      e = order ∨ e = 2 * order ∨ e = 5 * order := by
  have hON : order ≠ 0 := Nat.pos_iff_ne_zero.mp ho
  have hmul : d * order / order = d := by
    rw [mul_comm]; exact Nat.mul_div_cancel_left d ho
  unfold decomAmount2NatureNat
  simp only [hON, if_false, hmul]
  interval_cases d <;> intro e he <;> simp at he <;> omega

/-- Master shape invariant for the digit loop: provided `order` is a
power of ten and the pending dust is below the threshold, every
element of the result is positive and either below the threshold or of
the form `d·10^k` with `d ∈ 1,2,5`. -/
theorem decomLoopNatNat_shape (t : ℤ) :
    ∀ (fuel amount dust order : ℕ) (handled : Bool) (res : List ℕ) (k : ℕ),
    order = 10 ^ k →
    (dust = 0 ∨ (0 < dust ∧ (dust : ℤ) < t)) →
    (∀ e ∈ res, 0 < e ∧
      ((e : ℤ) < t ∨ ∃ j, e = 10 ^ j ∨ e = 2 * 10 ^ j ∨ e = 5 * 10 ^ j)) →
    ∀ e ∈ decomLoopNat t fuel amount dust order handled res, 0 < e ∧
      ((e : ℤ) < t ∨ ∃ j, e = 10 ^ j ∨ e = 2 * 10 ^ j ∨ e = 5 * 10 ^ j) := by
  intro fuel
  induction fuel with
  | zero =>
      intro amount dust order handled res k hk hdust hres e he
      match amount with
      | 0 =>
          rw [decomLoopNat] at he
          by_cases hcond : handled = false ∧ dust ≠ 0
          · rw [if_pos hcond] at he
            rcases List.mem_append.mp he with h | h
            · exact hres e h
            · have hed : e = dust := by simpa using h
              subst hed
              rcases hdust with h0 | ⟨hpos, hlt⟩
              · exact absurd h0 hcond.2
              · exact ⟨hpos, Or.inl hlt⟩
          · rw [if_neg hcond] at he
            exact hres e he
      | a + 1 =>
          rw [decomLoopNat] at he
          by_cases hcond : handled = false ∧ dust ≠ 0
          · rw [if_pos hcond] at he
            rcases List.mem_append.mp he with h | h
            · exact hres e h
            · have hed : e = dust := by simpa using h
              subst hed
              rcases hdust with h0 | ⟨hpos, hlt⟩
              · exact absurd h0 hcond.2
              · exact ⟨hpos, Or.inl hlt⟩
          · rw [if_neg hcond] at he
            exact hres e he
  | succ fuel ih =>
      intro amount dust order handled res k hk hdust hres e he
      match amount with
      | 0 =>
          rw [decomLoopNat] at he
          by_cases hcond : handled = false ∧ dust ≠ 0
          · rw [if_pos hcond] at he
            rcases List.mem_append.mp he with h | h
            · exact hres e h
            · have hed : e = dust := by simpa using h
              subst hed
              rcases hdust with h0 | ⟨hpos, hlt⟩
              · exact absurd h0 hcond.2
              · exact ⟨hpos, Or.inl hlt⟩
          · rw [if_neg hcond] at he
            exact hres e he
      | a + 1 =>
          rw [decomLoopNat] at he
          have ho : 0 < order := by rw [hk]; positivity
          have hk2 : order * 10 = 10 ^ (k + 1) := by rw [hk, pow_succ]
          by_cases hlt : ((dust + (a + 1) % 10 * order : ℕ) : ℤ) < t
          · rw [if_pos hlt] at he
            refine ih ((a + 1) / 10) (dust + (a + 1) % 10 * order) (order * 10)
              handled res (k + 1) hk2 ?_ hres e he
            by_cases hz : dust + (a + 1) % 10 * order = 0
            · exact Or.inl hz
            · exact Or.inr ⟨Nat.pos_of_ne_zero hz, hlt⟩
          · rw [if_neg hlt] at he
            have ho10 : order * 10 / 10 = order := by omega
            refine ih ((a + 1) / 10) dust (order * 10)
              (if handled = false ∧ dust ≠ 0 then true else handled)
              ((if handled = false ∧ dust ≠ 0 then res ++ [dust] else res) ++
                (if (a + 1) % 10 * order ≠ 0 then
                  decomAmount2NatureNat ((a + 1) % 10 * order) (order * 10 / 10)
                else []))
              (k + 1) hk2 hdust ?_ e he
            intro x hx
            rcases List.mem_append.mp hx with hx1 | hx2
            · by_cases hcond : handled = false ∧ dust ≠ 0
              · rw [if_pos hcond] at hx1
                rcases List.mem_append.mp hx1 with h | h
                · exact hres x h
                · have hxd : x = dust := by simpa using h
                  subst hxd
                  rcases hdust with h0 | ⟨hpos, hlt2⟩
                  · exact absurd h0 hcond.2
                  · exact ⟨hpos, Or.inl hlt2⟩
              · rw [if_neg hcond] at hx1
                exact hres x hx1
            · by_cases hck : (a + 1) % 10 * order ≠ 0
              · rw [if_pos hck, ho10] at hx2
                have hdig9 : (a + 1) % 10 ≤ 9 := by omega
                have hdig1 : 1 ≤ (a + 1) % 10 := by
                  by_contra hlt1
                  have : (a + 1) % 10 = 0 := by omega
                  exact hck (by rw [this, Nat.zero_mul])
                have hmem := decomAmount2NatureNatNat_mem order ((a + 1) % 10) ho hdig1 hdig9 x hx2
                have hxpos : 0 < x := by
                  rcases hmem with h | h | h <;> subst h <;> positivity
                refine ⟨hxpos, Or.inr ⟨k, ?_⟩⟩
                rcases hmem with h | h | h <;> subst h <;> simp [hk]
              · rw [if_neg hck] at hx2
                exact absurd hx2 (List.not_mem_nil x)

/-- C2 auxiliary: every element of a decomposition is positive and
either below the dust threshold or a 1/2/5 power-of-ten denomination. -/
theorem decomposeAmountNat_shape (a t : ℤ) :
    ∀ e ∈ decomposeAmountNat a t, 0 < e ∧
      ((e : ℤ) < t ∨ ∃ j, e = 10 ^ j ∨ e = 2 * 10 ^ j ∨ e = 5 * 10 ^ j) := by
  intro e he
  unfold decomposeAmountNat at he
  by_cases hle : a ≤ 0
  · rw [if_pos hle] at he
    exact absurd he (List.not_mem_nil e)
  · rw [if_neg hle] at he
    exact decomLoopNatNat_shape t 64 a.toNat 0 1 false [] 0 (by norm_num)
      (Or.inl rfl) (by intro x hx; exact absurd hx (List.not_mem_nil x)) e he
/-! ### Bridge between the int64 embedding and the wrap-free model -/

/-- Auxiliary: the dust-emission `if` commutes with the cast of the
result list. -/
theorem dustIf_map (dust : ℕ) (handled : Bool) (res : List ℕ) :
    (if handled = false ∧ ((dust : ℕ) : ℤ) ≠ 0 then
      res.map (Nat.cast : ℕ → ℤ) ++ [((dust : ℕ) : ℤ)]
    else res.map (Nat.cast : ℕ → ℤ))
      = (if handled = false ∧ dust ≠ 0 then res ++ [dust] else res).map
        (Nat.cast : ℕ → ℤ) := by
  by_cases hc : handled = false ∧ dust ≠ 0
  · rw [if_pos ⟨hc.1, Nat.cast_ne_zero.mpr hc.2⟩, if_pos hc, List.map_append]
    rfl
  · have hcZ : ¬ (handled = false ∧ ((dust : ℕ) : ℤ) ≠ 0) := by
      intro h
      exact hc ⟨h.1, fun h0 => h.2 (by rw [h0]; norm_num)⟩
    rw [if_neg hcZ, if_neg hc]

/-- Auxiliary: the handled-flag `if` is insensitive to casting the
dust value. -/
theorem handledIf_cast (dust : ℕ) (handled : Bool) :
    (if handled = false ∧ ((dust : ℕ) : ℤ) ≠ 0 then true else handled)
      = (if handled = false ∧ dust ≠ 0 then true else handled) := by
  by_cases hc : handled = false ∧ dust ≠ 0
  · rw [if_pos ⟨hc.1, Nat.cast_ne_zero.mpr hc.2⟩, if_pos hc]
  · have hcZ : ¬ (handled = false ∧ ((dust : ℕ) : ℤ) ≠ 0) := by
      intro h
      exact hc ⟨h.1, fun h0 => h.2 (by rw [h0]; norm_num)⟩
    rw [if_neg hcZ, if_neg hc]

/-- On non-negative arguments the int64 `decomAmount2Nature` computes
the cast of the wrap-free model (truncated division of naturals is
natural division, and no product can overflow). -/
theorem decomAmount2Nature_eq_natModel (c o : ℕ) :
    decomAmount2Nature (c : ℤ) (o : ℤ)
      = (decomAmount2NatureNat c o).map (Nat.cast : ℕ → ℤ) := by
  unfold decomAmount2Nature decomAmount2NatureNat
  by_cases ho : o = 0
  · subst ho
    norm_num
  · have hoZ : (o : ℤ) ≠ 0 := Nat.cast_ne_zero.mpr ho
    rw [if_neg hoZ, if_neg ho]
    have htd : (c : ℤ).tdiv (o : ℤ) = ((c / o : ℕ) : ℤ) :=
      (Int.ofNat_tdiv c o).symm
    rw [htd]
    rcases hm : c / o with _ | _ | _ | _ | _ | _ | _ | _ | _ | _ | m
    · norm_num
    · norm_num
    · norm_num
    · rw [if_pos (by norm_num)]
      simp
    · rw [if_neg (by norm_num), if_pos (by norm_num)]
      simp
    · rw [if_neg (by norm_num), if_neg (by norm_num), if_neg (by norm_num),
        if_neg (by norm_num), if_neg (by norm_num), if_neg (by norm_num)]
      simp
    · rw [if_neg (by norm_num), if_neg (by norm_num), if_pos (by norm_num)]
      simp
    · rw [if_neg (by norm_num), if_neg (by norm_num), if_neg (by norm_num),
        if_pos (by norm_num)]
      simp
    · rw [if_neg (by norm_num), if_neg (by norm_num), if_neg (by norm_num),
        if_neg (by norm_num), if_pos (by norm_num)]
      simp
    · rw [if_neg (by norm_num), if_neg (by norm_num), if_neg (by norm_num),
        if_neg (by norm_num), if_neg (by norm_num), if_pos (by norm_num)]
      simp
    · rw [if_neg (by push_cast; omega), if_neg (by push_cast; omega),
        if_neg (by push_cast; omega), if_neg (by push_cast; omega),
        if_neg (by push_cast; omega), if_neg (by push_cast; omega)]
      simp

/-- Main bridge: while `amount * order` stays below `10^18` (as it
does for every starting amount below `10^18`), no iteration of the
int64 loop overflows, and it computes the cast of the wrap-free
model. -/
theorem decomLoop_eq_natModel (t : ℤ) :
    ∀ (fuel : ℕ) (amount dust order k : ℕ) (handled : Bool) (res : List ℕ),
    order = 10 ^ k →
    amount * order < 10 ^ 18 →
    decomLoop t fuel (amount : ℤ) (dust : ℤ) (order : ℤ) handled
        (res.map (Nat.cast : ℕ → ℤ))
      = (decomLoopNat t fuel amount dust order handled res).map
        (Nat.cast : ℕ → ℤ) := by
  intro fuel
  induction fuel with
  | zero =>
      intro amount dust order k handled res hk hbound
      match amount with
      | 0 => rw [decomLoop, decomLoopNat, dustIf_map]
      | a + 1 => rw [decomLoop, decomLoopNat, dustIf_map]
  | succ fuel ih =>
      intro amount dust order k handled res hk hbound
      match amount with
      | 0 =>
          rw [decomLoop, decomLoopNat, if_pos (by norm_num), dustIf_map]
      | a + 1 =>
          have hane : ((a + 1 : ℕ) : ℤ) ≠ 0 := by
            exact_mod_cast Nat.succ_ne_zero a
          have hk17 : k ≤ 17 := by
            by_contra hgt
            have h18le : (18:ℕ) ≤ k := by omega
            have hp : (10:ℕ) ^ 18 ≤ 10 ^ k :=
              Nat.pow_le_pow_right (by norm_num) h18le
            have : (10:ℕ) ^ 18 ≤ (a + 1) * order := by
              calc (10:ℕ) ^ 18 ≤ 10 ^ k := hp
                _ = order := hk.symm
                _ ≤ (a + 1) * order := Nat.le_mul_of_pos_left order (by omega)
            omega
          have hordle : order * 10 ≤ 10 ^ 18 := by
            rw [hk, ← pow_succ]
            exact Nat.pow_le_pow_right (by norm_num) (by omega)
          have hwrap : wrap64 ((order : ℤ) * 10) = ((order * 10 : ℕ) : ℤ) := by
            rw [show ((order : ℤ) * 10) = ((order * 10 : ℕ) : ℤ) by push_cast; ring]
            refine wrap64_eq_self _ (by omega) ?_
            calc ((order * 10 : ℕ) : ℤ) ≤ ((10:ℕ) ^ 18 : ℤ) := by
                  exact_mod_cast hordle
              _ < 2 ^ 63 := by norm_num
          have htmod : ((a + 1 : ℕ) : ℤ).tmod 10 = (((a + 1) % 10 : ℕ) : ℤ) :=
            (Int.ofNat_tmod (a + 1) 10).symm
          have htdiv : ((a + 1 : ℕ) : ℤ).tdiv 10 = (((a + 1) / 10 : ℕ) : ℤ) :=
            (Int.ofNat_tdiv (a + 1) 10).symm
          have hchunk : ((a + 1 : ℕ) : ℤ).tmod 10 * (order : ℤ)
              = (((a + 1) % 10 * order : ℕ) : ℤ) := by
            rw [htmod]
            push_cast
            ring
          have hordtd : (((order * 10 : ℕ) : ℤ)).tdiv 10
              = ((order * 10 / 10 : ℕ) : ℤ) :=
            (Int.ofNat_tdiv (order * 10) 10).symm
          have hb2 : (a + 1) / 10 * (order * 10) < 10 ^ 18 := by
            have hstep : (a + 1) / 10 * (order * 10) ≤ (a + 1) * order := by
              calc (a + 1) / 10 * (order * 10) = ((a + 1) / 10 * 10) * order := by
                    ring
                _ ≤ (a + 1) * order :=
                    Nat.mul_le_mul_right order (Nat.div_mul_le_self (a + 1) 10)
            omega
          rw [decomLoop, decomLoopNat, if_neg hane]
          by_cases hlt : (((dust + (a + 1) % 10 * order : ℕ)) : ℤ) < t
          · have hltZ : (dust : ℤ) + ((a + 1 : ℕ) : ℤ).tmod 10 * (order : ℤ) < t := by
              rw [hchunk]
              push_cast at hlt ⊢
              omega
            rw [if_pos hltZ, if_pos hlt]
            rw [htdiv, hchunk, hwrap,
              show ((dust : ℕ) : ℤ) + (((a + 1) % 10 * order : ℕ) : ℤ)
                = ((dust + (a + 1) % 10 * order : ℕ) : ℤ) by push_cast; ring]
            exact ih ((a + 1) / 10) (dust + (a + 1) % 10 * order) (order * 10)
              (k + 1) handled res (by rw [hk, pow_succ]) hb2
          · have hltZ : ¬ ((dust : ℤ) + ((a + 1 : ℕ) : ℤ).tmod 10 * (order : ℤ) < t) := by
              rw [hchunk]
              push_cast at hlt ⊢
              omega
            rw [if_neg hltZ, if_neg hlt]
            rw [htdiv, hchunk, hwrap, hordtd, handledIf_cast, dustIf_map]
            by_cases hck : (a + 1) % 10 * order ≠ 0
            · have hckZ : (((a + 1) % 10 * order : ℕ) : ℤ) ≠ 0 :=
                Nat.cast_ne_zero.mpr hck
              rw [if_pos hckZ, if_pos hck, decomAmount2Nature_eq_natModel,
                ← List.map_append]
              exact ih ((a + 1) / 10) dust (order * 10) (k + 1)
                (if handled = false ∧ dust ≠ 0 then true else handled)
                ((if handled = false ∧ dust ≠ 0 then res ++ [dust] else res) ++
                  decomAmount2NatureNat ((a + 1) % 10 * order) (order * 10 / 10))
                (by rw [hk, pow_succ]) hb2
            · have hckZ : ¬ ((((a + 1) % 10 * order : ℕ) : ℤ) ≠ 0) := by
                intro h
                exact h (by
                  have : (a + 1) % 10 * order = 0 := by omega
                  rw [this]
                  norm_num)
              rw [if_neg hckZ, if_neg hck]
              rw [show (((if handled = false ∧ dust ≠ 0 then res ++ [dust] else res).map
                  (Nat.cast : ℕ → ℤ)) ++ ([] : List ℤ))
                = ((if handled = false ∧ dust ≠ 0 then res ++ [dust] else res) ++
                    ([] : List ℕ)).map (Nat.cast : ℕ → ℤ) by
                rw [List.map_append]
                rfl]
              exact ih ((a + 1) / 10) dust (order * 10) (k + 1)
                (if handled = false ∧ dust ≠ 0 then true else handled)
                ((if handled = false ∧ dust ≠ 0 then res ++ [dust] else res) ++ [])
                (by rw [hk, pow_succ]) hb2

/-- The int64 decomposition agrees with the wrap-free model for every
amount below `10^18`. -/
theorem decomposeAmount2digits_eq_natModel (a t : ℤ) (h18 : a < 10 ^ 18) :
    decomposeAmount2digits a t
      = (decomposeAmountNat a t).map (Nat.cast : ℕ → ℤ) := by
  unfold decomposeAmount2digits decomposeAmountNat
  by_cases hle : a ≤ 0
  · rw [if_pos hle, if_pos hle]
    rfl
  · rw [if_neg hle, if_neg hle]
    have ha : ((a.toNat : ℕ) : ℤ) = a := Int.toNat_of_nonneg (by omega)
    have hbound : a.toNat * 1 < 10 ^ 18 := by omega
    calc decomLoop t 64 a 0 1 false []
        = decomLoop t 64 ((a.toNat : ℕ) : ℤ) ((0 : ℕ) : ℤ) ((1 : ℕ) : ℤ) false
          (([] : List ℕ).map (Nat.cast : ℕ → ℤ)) := by
          rw [ha]
          norm_num
      _ = (decomLoopNat t 64 a.toNat 0 1 false []).map (Nat.cast : ℕ → ℤ) :=
          decomLoop_eq_natModel t 64 a.toNat 0 1 0 false [] (by norm_num) hbound

/-- Sum identity of the int64 decomposition on the wrap-free domain. -/
theorem decomposeAmount2digits_sum18 (a t : ℤ) (h0 : 0 ≤ a)
    (h18 : a < 10 ^ 18) :
    (decomposeAmount2digits a t).sum = a := by
  rw [decomposeAmount2digits_eq_natModel a t h18]
  have hcast : ((decomposeAmountNat a t).map (Nat.cast : ℕ → ℤ)).sum
      = (((decomposeAmountNat a t).sum : ℕ) : ℤ) :=
    (Nat.cast_list_sum (decomposeAmountNat a t)).symm
  rw [hcast]
  exact decomposeAmountNat_sum a t h0 (by
    calc a < 10 ^ 18 := h18
      _ < 2 ^ 63 := by norm_num)

/-- Element shape of the int64 decomposition on the wrap-free
domain. -/
theorem decomposeAmount2digits_shape18 (a t : ℤ) (h18 : a < 10 ^ 18) :
    ∀ e ∈ decomposeAmount2digits a t, 0 < e ∧
      (e < t ∨ ∃ j : ℕ, e = 10 ^ j ∨ e = 2 * 10 ^ j ∨ e = 5 * 10 ^ j) := by
  intro e he
  rw [decomposeAmount2digits_eq_natModel a t h18] at he
  obtain ⟨en, hen, rfl⟩ := List.mem_map.mp he
  obtain ⟨hpos, hshape⟩ := decomposeAmountNat_shape a t en hen
  refine ⟨by exact_mod_cast hpos, ?_⟩
  rcases hshape with h | ⟨j, h | h | h⟩
  · exact Or.inl h
  · exact Or.inr ⟨j, Or.inl (by exact_mod_cast congrArg (Nat.cast : ℕ → ℤ) h)⟩
  · refine Or.inr ⟨j, Or.inr (Or.inl ?_)⟩
    rw [h]
    push_cast
    ring
  · refine Or.inr ⟨j, Or.inr (Or.inr ?_)⟩
    rw [h]
    push_cast
    ring

/-! ### Claim theorems for the decomposer -/

/-- C1 counterexample: the sum identity fails on the program inside
the `int64` domain.  At `amount = 10^18` (a 19-digit `int64`) the
19th iteration wraps `order` to `-8446744073709551616`; the chunk
`10^18` is split by `decomAmount2Nature` with the wrapped
`order/10 = -844674407370955161`, yielding the single element
`844674407370955161`, whose sum is not `10^18`. -/
theorem decompose_sum_identity_refuted :
    decomposeAmount2digits 1000000000000000000 1000000
        = [844674407370955161] ∧
      (decomposeAmount2digits 1000000000000000000 1000000).sum
        ≠ 1000000000000000000 := by
  decide

/-- C1 amended: for every amount `0 ≤ a < 10^18` (all amounts of at
most 18 decimal digits, where the `order` update never overflows) and
every dust threshold `t > 0`, the elements of
`decomposeAmount2digits a t` sum to `a`; and decomposing `0` yields
the empty list. -/
theorem decompose_then_sum_identity (a t : ℤ) (h0 : 0 ≤ a)
    (h18 : a < 10 ^ 18) (ht : 0 < t) :
    (decomposeAmount2digits a t).sum = a ∧
      decomposeAmount2digits 0 t = [] := by
  refine ⟨decomposeAmount2digits_sum18 a t h0 h18, ?_⟩
  unfold decomposeAmount2digits
  rw [if_pos (by norm_num)]

/-- Witness for C1 (amended) at `a = 62387455827`, `t = 10^6`. -/
theorem decompose_then_sum_identity_witness :
    (0:ℤ) ≤ 62387455827 ∧ (62387455827:ℤ) < 10 ^ 18 ∧ (0:ℤ) < 1000000 ∧
      ((decomposeAmount2digits 62387455827 1000000).sum = 62387455827 ∧
        decomposeAmount2digits 0 1000000 = []) :=
  ⟨by norm_num, by norm_num, by norm_num,
    decompose_then_sum_identity 62387455827 1000000 (by norm_num) (by norm_num)
      (by norm_num)⟩

/-- C2 counterexample: at `amount = 10^18`, `t = 10^6` the program
emits the element `844674407370955161`, which is positive but neither
below the threshold nor of the form `d·10^j` with `d ∈ 1,2,5` (it
ends in the digit 1 and exceeds 1, so it is not divisible by 10, not
even, and not 1, 2 or 5). -/
theorem decompose_element_shape_refuted :
    (844674407370955161 : ℤ) ∈
        decomposeAmount2digits 1000000000000000000 1000000 ∧
      ¬ ((844674407370955161 : ℤ) < 1000000 ∨
        ∃ j : ℕ, (844674407370955161 : ℤ) = 10 ^ j ∨
          (844674407370955161 : ℤ) = 2 * 10 ^ j ∨
          (844674407370955161 : ℤ) = 5 * 10 ^ j) := by
  constructor
  · decide
  · rintro (h | ⟨j, h | h | h⟩)
    · norm_num at h
    · match j with
      | 0 => norm_num at h
      | j + 1 =>
          have hd : (10:ℤ) ∣ 844674407370955161 := by
            rw [h, pow_succ]
            exact ⟨10 ^ j, by ring⟩
          omega
    · match j with
      | 0 => norm_num at h
      | j + 1 =>
          have hd : (10:ℤ) ∣ 844674407370955161 := by
            rw [h, pow_succ]
            exact ⟨2 * 10 ^ j, by ring⟩
          omega
    · match j with
      | 0 => norm_num at h
      | j + 1 =>
          have hd : (10:ℤ) ∣ 844674407370955161 := by
            rw [h, pow_succ]
            exact ⟨5 * 10 ^ j, by ring⟩
          omega

/-- C2 amended: for every amount `a < 10^18` (at most 18 digits, the
overflow-free domain) and EVERY dust threshold `t`, every element of
`decomposeAmount2digits a t` is a positive integer that is either
strictly below `t` or of the form `d·10^j` with `d ∈ 1,2,5`. -/
theorem decompose_element_shape (a t e : ℤ) (h18 : a < 10 ^ 18)
    (he : e ∈ decomposeAmount2digits a t) :
    0 < e ∧ (e < t ∨ ∃ j : ℕ, e = 10 ^ j ∨ e = 2 * 10 ^ j ∨ e = 5 * 10 ^ j) :=
  decomposeAmount2digits_shape18 a t h18 e he

/-- Witness for C2 (amended): the dust element `455827` of the
decomposition of `62387455827` with threshold `10^6`. -/
theorem decompose_element_shape_witness :
    (62387455827:ℤ) < 10 ^ 18 ∧
      ((455827:ℤ) ∈ decomposeAmount2digits 62387455827 1000000) ∧
      (0 < (455827:ℤ) ∧ ((455827:ℤ) < 1000000 ∨
        ∃ j : ℕ, (455827:ℤ) = 10 ^ j ∨ (455827:ℤ) = 2 * 10 ^ j ∨
          (455827:ℤ) = 5 * 10 ^ j)) :=
  ⟨by norm_num, by decide,
    decompose_element_shape 62387455827 1000000 455827 (by norm_num) (by decide)⟩

/-- C3 counterexample: `decomposeAmount2digits 62387455827 10^6` does
NOT return the vector `[455827, 7000000, 80000000, 300000000,
2000000000, 60000000000]` stated by the specification (and by the
stale comment above the Go function): the digits 7, 8, 3 and 6 are
split into their canonical 1/2/5 break-down. -/
theorem decompose_concrete_vector_refuted :
    decomposeAmount2digits 62387455827 1000000 ≠
      [455827, 7000000, 80000000, 300000000, 2000000000, 60000000000] := by
  decide

/-- C3 amended: the decomposition of `62387455827` with threshold
`10^6` is the dust chunk `455827` first, followed by the 1/2/5
break-downs of each decade in ascending decade order (within one
decade the source emits `5·10^k`, then `2·10^k`, then `10^k`). -/
theorem decompose_concrete_vector :
    decomposeAmount2digits 62387455827 1000000 =
      [455827, 5000000, 2000000, 50000000, 20000000, 10000000,
        100000000, 200000000, 2000000000, 50000000000, 10000000000] := by
  decide

/-! ## Privacy-amount validity check

Embeds `checkAmountValid(amount int64) bool` (`wallet/privacy.go`
lines 28-38).  The Go code checks divisibility by `types.Coin` through
a `float64` detour:
`int64(float64(amount)/float64(types.Coin)) * types.Coin != amount`.
`float64` is IEEE-754 binary64: 53-bit mantissa, round to nearest with
ties to even, for both the `int64 → float64` conversions and the
division (which rounds the exact quotient).  All values reached here
lie in `[2^-27, 2^63]`, far from overflow and subnormals, so binary64
arithmetic is exact rational arithmetic followed by rounding onto the
grid `m · 2^(e-52)`, `2^52 ≤ m < 2^53`; we model it with integer
arithmetic only. -/

/-- Modelled from the spec: the system constant `types.Coin`, defined
in the `types` package which is outside the provided sources.  The
spec fixes `Coin = 10^8` ("Concrete scenarios ... `Coin = 10^8`"). -/
def Coin : ℤ := 100000000

/-- Floor logarithm base 2 with structural fuel: for `1 ≤ n < 2^fuel`,
the unique `e` with `2^e ≤ n < 2^(e+1)`. -/
def log2fuel : ℕ → ℕ → ℕ
  | 0, _ => 0
  | fuel + 1, n => if n < 2 then 0 else log2fuel fuel (n / 2) + 1

/-- Ceiling logarithm base 2: the least `f` with `m ≤ 2^f`
(for `1 ≤ m < 2^64`). -/
def ceilLog2 (m : ℕ) : ℕ :=
  if 2 ^ log2fuel 64 m = m then log2fuel 64 m else log2fuel 64 m + 1

/-- Round the fraction `n / d` (with `d > 0`) to the nearest integer,
ties to even: IEEE rounding applied to a scaled mantissa. -/
def roundHalfEvenInt (n d : ℕ) : ℕ :=
  if 2 * (n % d) < d then n / d
  else if d < 2 * (n % d) then n / d + 1
  else if n / d % 2 = 0 then n / d else n / d + 1

/-- The binary64 value of a non-negative integer below `2^64` (the
rounding step of Go's `int64 → float64` conversion).  For `a < 2^53`
the conversion is exact; otherwise the low `e - 52` bits are rounded
away, ties to even.  The result is always an integer again. -/
def float64OfNat (a : ℕ) : ℕ :=
  if log2fuel 64 a ≤ 52 then a
  else roundHalfEvenInt a (2 ^ (log2fuel 64 a - 52)) * 2 ^ (log2fuel 64 a - 52)

/-- Floor logarithm base 2 of the positive fraction `n / d`: the
unique `e` with `2^e ≤ n/d < 2^(e+1)`.  For `n/d < 1` this is `-f`
where `f` is the least exponent with `d ≤ n · 2^f`, i.e. the ceiling
logarithm of `⌈d/n⌉`. -/
def floorLog2Rat (n d : ℕ) : ℤ :=
  if d ≤ n then (log2fuel 64 (n / d) : ℤ)
  else -(ceilLog2 ((d + n - 1) / n) : ℤ)

/-- Computes the floor of `fl(n / d)` for positive integers `n`, `d`: the correctly
rounded binary64 quotient (round to nearest, ties to even, on the
mantissa `n/d / 2^(e-52)`), truncated toward zero exactly as Go's
`int64(...)` conversion does on the non-negative result. -/
def floorFloatDiv (n d : ℕ) : ℕ :=
  if 52 ≤ floorLog2Rat n d then
    roundHalfEvenInt n (d * 2 ^ (floorLog2Rat n d - 52).toNat)
      * 2 ^ (floorLog2Rat n d - 52).toNat
  else
    roundHalfEvenInt (n * 2 ^ (52 - floorLog2Rat n d).toNat) d
      / 2 ^ (52 - floorLog2Rat n d).toNat

/-- Embedding of `checkAmountValid(amount int64) bool`: reject
`amount ≤ 0`, then compare
`int64(float64(amount)/float64(types.Coin)) * types.Coin` with
`amount`. -/
def checkAmountValid (amount : ℤ) : Bool :=
  if amount ≤ 0 then false
  else if wrap64 ((floorFloatDiv (float64OfNat amount.toNat)
      (float64OfNat Coin.toNat) : ℤ) * Coin) ≠ amount then false
  else true

/-- C4: the claim that `checkAmountValid amount = true` exactly when
`amount` is a positive integer multiple of `Coin` fails on the code:
the `float64` conversion loses the low bits of large amounts, so the
valid amount `5000000000200000000 = 50000000002 · Coin` (which rounds
down by 512 when converted to binary64, pushing the rounded quotient
just below `50000000002`) is rejected by the code, contradicting the
code's own comment that the check accepts exactly the positive
integer multiples of `types.Coin`.  A small valid amount is accepted,
as a control. -/
theorem checkAmountValid_rejects_valid_multiple :
    checkAmountValid 5000000000200000000 = false ∧
      0 < (5000000000200000000 : ℤ) ∧
      Coin ∣ (5000000000200000000 : ℤ) ∧
      checkAmountValid 500000000 = true := by
  decide

/-! ## Ring assembly in buildInput

Embeds the per-input ring construction of `buildInput`
(`wallet/privacy.go` lines 620-668): deduplicate the fetched decoys
against the real UTXO's one-time public key, truncate, append the real
UTXO, then scatter the ring through a random permutation and record
the real position. -/

/-- One-time public keys are byte strings (`[]byte`), modelled as
`List ℕ`; `bytes.Equal` is list equality. -/
structure UTXOGlobalIndex where
  txhash : List ℕ
  outindex : ℤ
deriving DecidableEq

/-- Embedding of `types.UTXOBasic`. -/
structure UTXOBasic where
  utxoGlobalIndex : UTXOGlobalIndex
  onetimePubkey : List ℕ
deriving DecidableEq

/-- The dedup loop of `buildInput`: `for j, utxo := range utxos { if
bytes.Equal(utxo.OnetimePubkey, utxo2pay.onetimePublicKey) { utxos =
append(utxos[:j], utxos[j+1:]...); break } }` removes the FIRST decoy
whose one-time public key equals the real one (and only that one). -/
def removeSelfUtxo (utxos : List UTXOBasic) (realPub : List ℕ) : List UTXOBasic :=
  match utxos with
  | [] => []
  | u :: rest =>
      if u.onetimePubkey = realPub then rest
      else u :: removeSelfUtxo rest realPub

/-- Ring construction for one input of `buildInput`: after the dedup,
`if len(utxos) > int(mixcount) { utxos = utxos[:len(utxos)-1] }`
removes exactly ONE trailing decoy, then the real UTXO is appended.
(The Go slice expression would panic on an empty slice, which is
reachable only for a negative `mixcount`; `List.dropLast` of `[]` is
`[]`.) -/
def buildRing (decoys : List UTXOBasic) (utxo2pay : UTXOBasic)
    (mixcount : ℤ) : List UTXOBasic :=
  (if mixcount < ((removeSelfUtxo decoys utxo2pay.onetimePubkey).length : ℤ) then
    (removeSelfUtxo decoys utxo2pay.onetimePubkey).dropLast
  else removeSelfUtxo decoys utxo2pay.onetimePubkey) ++ [utxo2pay]

/-- The permutation scatter of `buildInput`: `utxos :=
make([]*types.UTXOBasic, len(ring)); for k, position := range
positions { utxos[position] = ring[k] }`.  The freshly allocated slice
holds nil pointers, modelled as `none`. -/
def permuteRing (positions : List ℕ) (ring : List UTXOBasic) :
    List (Option UTXOBasic) :=
  (positions.zip ring).foldl (fun acc pu => acc.set pu.1 (some pu.2))
    (List.replicate ring.length none)

/-- Embedding of `realkeyInput.Realinputkey = int32(positions[len(positions)-1])`:
the permuted position of the real UTXO, which was appended last. -/
def realInputKey (positions : List ℕ) : ℕ :=
  positions.getD (positions.length - 1) 0

/-- The dedup never lengthens the decoy list. -/
theorem removeSelfUtxo_length_le (utxos : List UTXOBasic) (realPub : List ℕ) :
    (removeSelfUtxo utxos realPub).length ≤ utxos.length := by
  induction utxos with
  | nil => simp [removeSelfUtxo]
  | cons u rest ih =>
      rw [removeSelfUtxo]
      by_cases hc : u.onetimePubkey = realPub
      · rw [if_pos hc]
        simp
      · rw [if_neg hc]
        simp only [List.length_cons]
        omega

/-- Auxiliary: `getD` after `set` at the same in-bounds index. -/
theorem getD_set_self {α : Type} :
    ∀ (l : List α) (p : ℕ) (v d : α), p < l.length →
      (l.set p v).getD p d = v
  | [], p, v, d, h => absurd h (by simp)
  | a :: l, 0, v, d, _ => rfl
  | a :: l, p + 1, v, d, h =>
      getD_set_self l p v d (by simpa using h)

/-- Auxiliary: the scatter fold preserves the target length. -/
theorem scatter_length {α : Type} :
    ∀ (L : List (ℕ × α)) (acc : List (Option α)),
      (L.foldl (fun acc pu => acc.set pu.1 (some pu.2)) acc).length = acc.length
  | [], _ => rfl
  | pu :: L, acc => by
      rw [List.foldl_cons, scatter_length L]
      exact List.length_set acc pu.1 (some pu.2)

/-- Auxiliary: scattering `ps ++ [p]` over `us ++ [u]` writes `u` at
position `p` last, so the result reads `u` at `p`. -/
theorem scatter_getD_last {α : Type} [DecidableEq α] :
    ∀ (ps : List ℕ) (us : List α) (p : ℕ) (u : α) (acc : List (Option α)),
      ps.length = us.length → p < acc.length →
      (((ps ++ [p]).zip (us ++ [u])).foldl
        (fun acc pu => acc.set pu.1 (some pu.2)) acc).getD p none = some u := by
  intro ps
  induction ps with
  | nil =>
      intro us p u acc hlen hp
      have hus : us = [] := List.length_eq_zero.mp (by simpa using hlen.symm)
      subst hus
      simp only [List.nil_append, List.zip_cons_cons, List.zip_nil_right,
        List.foldl_cons, List.foldl_nil]
      exact getD_set_self acc p (some u) none hp
  | cons x ps ih =>
      intro us p u acc hlen hp
      match us with
      | [] => exact absurd hlen (by simp)
      | y :: us =>
          simp only [List.cons_append, List.zip_cons_cons, List.foldl_cons]
          refine ih us p u (acc.set x (some y)) (by simpa using hlen) ?_
          rw [List.length_set]
          exact hp

/-- Auxiliary: `getD` at index `length - 1` is `getLast`. -/
theorem getD_length_sub_one :
    ∀ (l : List ℕ) (h : l ≠ []), l.getD (l.length - 1) 0 = l.getLast h
  | [], h => absurd rfl h
  | [a], _ => rfl
  | a :: b :: l, _ => by
      have hrec := getD_length_sub_one (b :: l) (by simp)
      rw [List.getLast_cons (by simp : (b :: l) ≠ [])]
      rw [← hrec]
      rfl

/-- C5 counterexample: with `mix = 5` and the chain returning 8 decoys
none of which matches the real key, the assembled ring has 8 members,
more than `mix + 1 = 6`: the truncation step removes only one decoy,
so the bound fails as soon as the chain returns more than `mix + 1`
decoys.  Moreover, when TWO fetched decoys carry the real key, only
the first is removed (the dedup loop breaks after one hit): the
second stays in the ring. -/
theorem ring_size_bound_refuted :
    ¬ (((buildRing
        [⟨⟨[], 0⟩, [0]⟩, ⟨⟨[], 1⟩, [1]⟩, ⟨⟨[], 2⟩, [2]⟩, ⟨⟨[], 3⟩, [3]⟩,
         ⟨⟨[], 4⟩, [4]⟩, ⟨⟨[], 5⟩, [5]⟩, ⟨⟨[], 6⟩, [6]⟩, ⟨⟨[], 7⟩, [7]⟩]
        ⟨⟨[], 9⟩, [9]⟩ 5).length : ℤ) ≤ 5 + 1) ∧
      (⟨⟨[], 1⟩, [9]⟩ : UTXOBasic) ∈
        buildRing [⟨⟨[], 0⟩, [9]⟩, ⟨⟨[], 1⟩, [9]⟩] ⟨⟨[], 9⟩, [9]⟩ 5 := by
  decide

/-- C5 amended: the FIRST fetched decoy whose one-time public key
equals the real UTXO's is removed; whenever the chain returns at most
`mix + 1` decoys (it is asked for `mix`), the ring has at most
`mix + 1` members; and in the concrete scenario — `mix = 5`, 4
returned decoys of which one equals the real key — the final ring has
exactly 4 members. -/
theorem ring_dedup_and_size (decoys : List UTXOBasic) (utxo2pay : UTXOBasic)
    (mixcount : ℤ) (hm : 0 ≤ mixcount)
    (hlen : (decoys.length : ℤ) ≤ mixcount + 1) :
    ((buildRing decoys utxo2pay mixcount).length : ℤ) ≤ mixcount + 1 ∧
      (buildRing
        [⟨⟨[], 0⟩, [0]⟩, ⟨⟨[], 1⟩, [1]⟩, ⟨⟨[], 2⟩, [2]⟩, ⟨⟨[], 3⟩, [9]⟩]
        ⟨⟨[], 9⟩, [9]⟩ 5).length = 4 := by
  constructor
  · unfold buildRing
    rw [List.length_append]
    have h1 := removeSelfUtxo_length_le decoys utxo2pay.onetimePubkey
    by_cases hc : mixcount <
        ((removeSelfUtxo decoys utxo2pay.onetimePubkey).length : ℤ)
    · rw [if_pos hc]
      rw [List.length_dropLast]
      simp only [List.length_singleton]
      omega
    · rw [if_neg hc]
      simp only [List.length_singleton]
      omega
  · decide

/-- Witness for C5 (amended) at `mix = 5` with a single decoy. -/
theorem ring_dedup_and_size_witness :
    (0:ℤ) ≤ 5 ∧ ((([⟨⟨[], 0⟩, [0]⟩] : List UTXOBasic).length : ℤ) ≤ 5 + 1) ∧
      (((buildRing [⟨⟨[], 0⟩, [0]⟩] ⟨⟨[], 9⟩, [9]⟩ 5).length : ℤ) ≤ 5 + 1 ∧
        (buildRing
          [⟨⟨[], 0⟩, [0]⟩, ⟨⟨[], 1⟩, [1]⟩, ⟨⟨[], 2⟩, [2]⟩, ⟨⟨[], 3⟩, [9]⟩]
          ⟨⟨[], 9⟩, [9]⟩ 5).length = 4) :=
  ⟨by norm_num, by decide,
    ring_dedup_and_size [⟨⟨[], 0⟩, [0]⟩] ⟨⟨[], 9⟩, [9]⟩ 5 (by norm_num) (by decide)⟩

/-- C6: for every build and every permutation drawn by
`wallet.random.Perm` (any `positions` that is a permutation of
`0, ..., ringlen-1`), the permuted ring holds the real UTXO at the
recorded index `Realinputkey = positions[len(positions)-1]`. -/
theorem real_position_holds_real_utxo (decoys : List UTXOBasic)
    (utxo2pay : UTXOBasic) (mixcount : ℤ) (positions : List ℕ)
    (hp : positions.Perm (List.range (buildRing decoys utxo2pay mixcount).length)) :
    (permuteRing positions (buildRing decoys utxo2pay mixcount)).getD
      (realInputKey positions) none = some utxo2pay := by
  have hring : buildRing decoys utxo2pay mixcount =
      (if mixcount < ((removeSelfUtxo decoys utxo2pay.onetimePubkey).length : ℤ) then
        (removeSelfUtxo decoys utxo2pay.onetimePubkey).dropLast
      else removeSelfUtxo decoys utxo2pay.onetimePubkey) ++ [utxo2pay] := rfl
  set X := (if mixcount < ((removeSelfUtxo decoys utxo2pay.onetimePubkey).length : ℤ) then
    (removeSelfUtxo decoys utxo2pay.onetimePubkey).dropLast
  else removeSelfUtxo decoys utxo2pay.onetimePubkey) with hX
  have hn : (buildRing decoys utxo2pay mixcount).length = X.length + 1 := by
    rw [hring, List.length_append, List.length_singleton]
  have hplen : positions.length = X.length + 1 := by
    have := hp.length_eq
    rw [List.length_range, hn] at this
    exact this
  have hne : positions ≠ [] := by
    intro h
    rw [h] at hplen
    simp at hplen
  obtain ⟨q, p, hpos⟩ : ∃ q p, positions = q ++ [p] :=
    ⟨positions.dropLast, positions.getLast hne,
      (List.dropLast_append_getLast hne).symm⟩
  subst hpos
  have hkey : realInputKey (q ++ [p]) = p := by
    unfold realInputKey
    rw [getD_length_sub_one (q ++ [p]) (by simp)]
    exact List.getLast_concat _
  have hqlen : q.length = X.length := by
    rw [List.length_append, List.length_singleton] at hplen
    omega
  have hlast_lt : p < X.length + 1 := by
    have h1 : p ∈ List.range (X.length + 1) := by
      rw [← hn]
      exact hp.mem_iff.mp (by simp)
    exact List.mem_range.mp h1
  unfold permuteRing
  rw [hkey, hring]
  refine scatter_getD_last q X p utxo2pay
    (List.replicate (X ++ [utxo2pay]).length none) hqlen ?_
  rw [List.length_replicate, List.length_append, List.length_singleton]
  omega

/-- Witness for C6: three ring members, permutation `[1, 2, 0]`. -/
theorem real_position_holds_real_utxo_witness :
    ([1, 2, 0] : List ℕ).Perm (List.range (buildRing
      [⟨⟨[], 0⟩, [0]⟩, ⟨⟨[], 1⟩, [1]⟩] ⟨⟨[], 9⟩, [9]⟩ 5).length) ∧
      (permuteRing [1, 2, 0] (buildRing
        [⟨⟨[], 0⟩, [0]⟩, ⟨⟨[], 1⟩, [1]⟩] ⟨⟨[], 9⟩, [9]⟩ 5)).getD
        (realInputKey [1, 2, 0]) none = some ⟨⟨[], 9⟩, [9]⟩ :=
  ⟨by decide, real_position_holds_real_utxo
    [⟨⟨[], 0⟩, [0]⟩, ⟨⟨[], 1⟩, [1]⟩] ⟨⟨[], 9⟩, [9]⟩ 5 [1, 2, 0] (by decide)⟩

/-! ## Output generation and value conservation

Embeds the KeyOutput amount vector produced by `generateOuts`
(`wallet/privacy.go` lines 301-346) and its three call sites:
S→S (`transPri2PriV2`, line 430), S→P (`transPri2PubV2`, line 502,
with transfer amount `0` and `changeAmount = selectedTotal - amount`)
and P→S (`transPub2PriV2`, line 223, with `selected = amount` and
`fee = 0`).  Only the amounts matter for the conservation claims; the
one-time keys attached to each amount are produced by the
cryptographic oracle. -/

/-- Modelled from the spec: the system constant `types.BTYDustThreshold`
(the `types` package is outside the provided sources); the spec fixes
`dust_threshold = 10^6` ("Concrete scenarios ... `dust_threshold =
10^6`"). -/
def BTYDustThreshold : ℤ := 1000000

/-- Modelled from the spec: the system constant `types.PrivacyTxFee`
(outside the provided sources); spec scenario 5 uses `fee 10^6` for a
privacy transaction. -/
def PrivacyTxFee : ℤ := 1000000

/-- The amounts of the KeyOutputs built by `generateOuts`: the
decomposed transfer amount, followed by the decomposed change
`changeAmount = selectedAmount - transAmount - fee` when it is
positive (`if 0 < changeAmount`).  The fee produces no output (the
dead fee-UTXO branch is commented out in the source). -/
def generateOutsAmounts (transAmount selectedAmount fee : ℤ) : List ℤ :=
  decomposeAmount2digits transAmount BTYDustThreshold ++
    (if 0 < selectedAmount - transAmount - fee then
      decomposeAmount2digits (selectedAmount - transAmount - fee) BTYDustThreshold
    else [])

/-- Output amounts of an S→S build: `generateOuts(..., amount,
selectedAmounTotal, types.PrivacyTxFee)` in `transPri2PriV2`. -/
def transPri2PriOutputAmounts (amount selectedTotal : ℤ) : List ℤ :=
  generateOutsAmounts amount selectedTotal PrivacyTxFee

/-- Output amounts of an S→P build: `generateOuts(nil, nil, ..., 0,
changeAmount, types.PrivacyTxFee)` with `changeAmount =
selectedAmounTotal - reqPri2Pub.Amount` in `transPri2PubV2`. -/
def transPri2PubOutputAmounts (amount selectedTotal : ℤ) : List ℤ :=
  generateOutsAmounts 0 (selectedTotal - amount) PrivacyTxFee

/-- Output amounts of a P→S build: `generateOuts(..., amount, amount,
0)` in `transPub2PriV2` (and in `createPublic2PrivacyTx`). -/
def transPub2PriOutputAmounts (amount : ℤ) : List ℤ :=
  generateOutsAmounts amount amount 0

/-- C7 counterexample: for the S→P build with requested amount
`3·10^8` and a selected input total of `5·10^8`, the KeyOutputs are
only the change `5·10^8 - 3·10^8 - 10^6`, so selected ≠ outputs + fee:
the claimed conservation equation omits the `amount` paid out to the
public receiver. -/
theorem conservation_refuted :
    ¬ ((transPri2PubOutputAmounts 300000000 500000000).sum
      + PrivacyTxFee = 500000000) := by
  decide

/-- C7 amended: for every S→S build whose selector covered
`amount + fee` and whose selected total is below `10^18` (the
overflow-free domain of the decomposer, see C1),
`sum(selected) = sum(outputs) + fee`; for every such S→P build,
`sum(selected) = sum(outputs) + fee + amount` (the amount reaches the
public receiver outside the privacy outputs). -/
theorem conservation_amended (amount selectedTotal : ℤ) (h0 : 0 ≤ amount)
    (hcover : amount + PrivacyTxFee ≤ selectedTotal)
    (h18 : selectedTotal < 10 ^ 18) :
    (transPri2PriOutputAmounts amount selectedTotal).sum
        + PrivacyTxFee = selectedTotal ∧
      (transPri2PubOutputAmounts amount selectedTotal).sum
        + PrivacyTxFee + amount = selectedTotal := by
  have hfee : PrivacyTxFee = 1000000 := rfl
  constructor
  · unfold transPri2PriOutputAmounts generateOutsAmounts
    rw [List.sum_append]
    rw [decomposeAmount2digits_sum18 amount BTYDustThreshold h0 (by omega)]
    by_cases hch : 0 < selectedTotal - amount - PrivacyTxFee
    · rw [if_pos hch]
      rw [decomposeAmount2digits_sum18 _ BTYDustThreshold (by omega) (by omega)]
      ring
    · rw [if_neg hch]
      simp only [List.sum_nil]
      omega
  · unfold transPri2PubOutputAmounts generateOutsAmounts
    rw [List.sum_append]
    rw [decomposeAmount2digits_sum18 0 BTYDustThreshold le_rfl (by norm_num)]
    by_cases hch : 0 < selectedTotal - amount - 0 - PrivacyTxFee
    · rw [if_pos hch]
      rw [decomposeAmount2digits_sum18 _ BTYDustThreshold (by omega) (by omega)]
      ring
    · rw [if_neg hch]
      simp only [List.sum_nil]
      omega

/-- Witness for C7 (amended): scenario 5 of the spec, selected total
`5·10^8`, amount `4·10^8`, fee `10^6`. -/
theorem conservation_amended_witness :
    (0:ℤ) ≤ 400000000 ∧
        (400000000:ℤ) + PrivacyTxFee ≤ 500000000 ∧
      (500000000:ℤ) < 10 ^ 18 ∧
      ((transPri2PriOutputAmounts 400000000 500000000).sum
          + PrivacyTxFee = 500000000 ∧
        (transPri2PubOutputAmounts 400000000 500000000).sum
          + PrivacyTxFee + 400000000 = 500000000) :=
  ⟨by norm_num, by decide, by norm_num,
    conservation_amended 400000000 500000000 (by norm_num) (by decide)
      (by norm_num)⟩

/-- C9 counterexample: the P→S build of the valid amount `3·10^8`
produces TWO KeyOutputs `[10^8, 2·10^8]`, not a single KeyOutput of
the requested amount: `generateOuts` decomposes the transfer amount
also on the public-to-private path. -/
theorem p2s_single_output_refuted :
    transPub2PriOutputAmounts 300000000 ≠ [300000000] := by
  decide

/-- C9 amended: a P→S build produces exactly the canonical
decomposition of the requested amount (no change outputs, and for
every amount in the overflow-free domain `0 ≤ amount < 10^18` the sum
of the KeyOutput amounts equals the amount); in particular the build
of `10^8` yields exactly one KeyOutput of amount `10^8`. -/
theorem p2s_outputs_decomposed (amount : ℤ) (h0 : 0 ≤ amount)
    (h18 : amount < 10 ^ 18) :
    transPub2PriOutputAmounts amount
        = decomposeAmount2digits amount BTYDustThreshold ∧
      (transPub2PriOutputAmounts amount).sum = amount ∧
      transPub2PriOutputAmounts 100000000 = [100000000] := by
  have h1 : transPub2PriOutputAmounts amount
      = decomposeAmount2digits amount BTYDustThreshold := by
    unfold transPub2PriOutputAmounts generateOutsAmounts
    rw [if_neg (by omega)]
    rw [List.append_nil]
  refine ⟨h1, ?_, by decide⟩
  rw [h1]
  exact decomposeAmount2digits_sum18 amount BTYDustThreshold h0 h18

/-- Witness for C9 (amended) at `amount = 10^8`. -/
theorem p2s_outputs_decomposed_witness :
    (0:ℤ) ≤ 100000000 ∧ (100000000:ℤ) < 10 ^ 18 ∧
      (transPub2PriOutputAmounts 100000000
          = decomposeAmount2digits 100000000 BTYDustThreshold ∧
        (transPub2PriOutputAmounts 100000000).sum = 100000000 ∧
        transPub2PriOutputAmounts 100000000 = [100000000]) :=
  ⟨by norm_num, by norm_num,
    p2s_outputs_decomposed 100000000 (by norm_num) (by norm_num)⟩

/-! ## FTXO write ordering: direct versus deferred paths

Embeds the store-mutating control flow of the direct S→S path
(`transPri2PriV2`, `wallet/privacy.go` lines 398-473: every failing
step returns before `wallet.api.SendTx`; a `SendTx` error returns
before `saveFTXOInfo`; only on submission success is
`moveUTXO2FTXO` reached) and of the deferred path
(`createPrivacy2PrivacyTx`, lines 898-969: `saveFTXOInfo` runs right
after assembly and the unsigned transaction is returned without any
`SendTx`).  The outcome of each external step is an input, and the
functions return the sequence of store/chain mutating calls the Go
code performs, together with the success of the whole call. -/

/-- Store- or chain-mutating calls of a build. -/
inductive WalletCall
  | sendTx
  | moveUTXO2FTXO
deriving DecidableEq

/-- Outcomes of the fallible steps of a build, in source order. -/
structure BuildEnv where
  buildInputOk : Bool
  parsePubKeyOk : Bool
  generateOutsOk : Bool
  signOk : Bool
  sendOk : Bool
deriving DecidableEq

/-- Mutating-call trace of the direct path `transPri2PriV2` (the S→P
twin `transPri2PubV2`, lines 475-544, has the identical shape). -/
def transPri2PriV2Calls (env : BuildEnv) : List WalletCall × Bool :=
  if env.buildInputOk = false then ([], false)
  else if env.parsePubKeyOk = false then ([], false)
  else if env.generateOutsOk = false then ([], false)
  else if env.signOk = false then ([], false)
  else if env.sendOk = false then ([WalletCall.sendTx], false)
  else ([WalletCall.sendTx, WalletCall.moveUTXO2FTXO], true)

/-- Mutating-call trace of the deferred path
`createPrivacy2PrivacyTx` (the S→P twin `createPrivacy2PublicTx`,
lines 972-1039, has the identical shape): no signing and no
submission happen, `saveFTXOInfo` runs before the transaction is
returned. -/
def createPrivacy2PrivacyTxCalls (env : BuildEnv) : List WalletCall × Bool :=
  if env.buildInputOk = false then ([], false)
  else if env.parsePubKeyOk = false then ([], false)
  else if env.generateOutsOk = false then ([], false)
  else ([WalletCall.moveUTXO2FTXO], true)

/-- C8: in the direct path the FTXO record is written exactly when
`SendTx` succeeded, and then strictly after it (the only trace
containing the write is `[sendTx, moveUTXO2FTXO]`); when submission
fails no FTXO write happens at all.  In the deferred path the
successful assembly performs exactly the FTXO write — before the
unsigned transaction is returned — and never submits. -/
theorem ftxo_write_ordering (env : BuildEnv) :
    (WalletCall.moveUTXO2FTXO ∈ (transPri2PriV2Calls env).1 ↔
      WalletCall.sendTx ∈ (transPri2PriV2Calls env).1 ∧ env.sendOk = true) ∧
    (WalletCall.moveUTXO2FTXO ∈ (transPri2PriV2Calls env).1 →
      (transPri2PriV2Calls env).1 = [WalletCall.sendTx, WalletCall.moveUTXO2FTXO]) ∧
    ((transPri2PriV2Calls env).2 = false →
      WalletCall.moveUTXO2FTXO ∉ (transPri2PriV2Calls env).1) ∧
    ((createPrivacy2PrivacyTxCalls env).2 = true →
      (createPrivacy2PrivacyTxCalls env).1 = [WalletCall.moveUTXO2FTXO]) ∧
    (WalletCall.sendTx ∉ (createPrivacy2PrivacyTxCalls env).1) := by
  obtain ⟨b1, b2, b3, b4, b5⟩ := env
  cases b1 <;> cases b2 <;> cases b3 <;> cases b4 <;> cases b5 <;> decide

/-- Witness for C8 at the failed-submission environment. -/
theorem ftxo_write_ordering_witness :
    (WalletCall.moveUTXO2FTXO ∈ (transPri2PriV2Calls ⟨true, true, true, true, false⟩).1 ↔
      WalletCall.sendTx ∈ (transPri2PriV2Calls ⟨true, true, true, true, false⟩).1 ∧
        (BuildEnv.mk true true true true false).sendOk = true) ∧
    (WalletCall.moveUTXO2FTXO ∈ (transPri2PriV2Calls ⟨true, true, true, true, false⟩).1 →
      (transPri2PriV2Calls ⟨true, true, true, true, false⟩).1 =
        [WalletCall.sendTx, WalletCall.moveUTXO2FTXO]) ∧
    ((transPri2PriV2Calls ⟨true, true, true, true, false⟩).2 = false →
      WalletCall.moveUTXO2FTXO ∉ (transPri2PriV2Calls ⟨true, true, true, true, false⟩).1) ∧
    ((createPrivacy2PrivacyTxCalls ⟨true, true, true, true, false⟩).2 = true →
      (createPrivacy2PrivacyTxCalls ⟨true, true, true, true, false⟩).1 =
        [WalletCall.moveUTXO2FTXO]) ∧
    (WalletCall.sendTx ∉ (createPrivacy2PrivacyTxCalls ⟨true, true, true, true, false⟩).1) :=
  ftxo_write_ordering ⟨true, true, true, true, false⟩

/-! ## Observed-spend flush

Embeds the batch body of `DeleteScanPrivacyInputUtxo`
(`wallet/privacy.go` lines 1559-1598): for every global index of the
batch, look the UTXO up (`IsUTXOExist`); on a match, append the
reconstructed UTXO to `utxos` and OVERWRITE the loop-carried `owner`,
`token`, `txhash` variables with the matched record's fields; after
the loop, a single `moveUTXO2STXO(owner, token, txhash, utxos)` is
issued whenever `utxos` is non-empty. -/

/-- The fields of `types.PrivacyDBStore` read by the flush loop.
`Owner` and `Tokenname` are Go strings, modelled as identifiers. -/
structure PrivacyDBStore where
  amount : ℤ
  owner : ℕ
  tokenname : ℕ
  txhash : List ℕ
  onetimePublicKey : List ℕ
deriving DecidableEq

/-- Embedding of `types.UTXO` as rebuilt by the flush loop. -/
structure UTXO where
  amount : ℤ
  utxoBasic : UTXOBasic
deriving DecidableEq

/-- The single `moveUTXO2STXO` call emitted per batch. -/
structure MoveUTXO2STXOCall where
  owner : ℕ
  token : ℕ
  txhash : List ℕ
  utxos : List UTXO
deriving DecidableEq

/-- One iteration of the flush loop: `accPrivacy, err :=
IsUTXOExist(...)`; on a hit, extend `utxos` and overwrite the
loop-carried key variables. -/
def scanFoldStep (store : UTXOGlobalIndex → Option PrivacyDBStore)
    (acc : List UTXO × ℕ × ℕ × List ℕ) (g : UTXOGlobalIndex) :
    List UTXO × ℕ × ℕ × List ℕ :=
  match store g with
  | some r => (acc.1 ++ [⟨r.amount, ⟨g, r.onetimePublicKey⟩⟩],
      r.owner, r.tokenname, r.txhash)
  | none => acc

/-- One batch of `DeleteScanPrivacyInputUtxo`: fold the loop over the
batch starting from Go zero values, then emit the single
`moveUTXO2STXO` call if any UTXO matched. -/
def deleteScanBatch (store : UTXOGlobalIndex → Option PrivacyDBStore)
    (batch : List UTXOGlobalIndex) : Option MoveUTXO2STXOCall :=
  if (batch.foldl (scanFoldStep store) ([], 0, 0, [])).1 ≠ [] then
    some ⟨(batch.foldl (scanFoldStep store) ([], 0, 0, [])).2.1,
      (batch.foldl (scanFoldStep store) ([], 0, 0, [])).2.2.1,
      (batch.foldl (scanFoldStep store) ([], 0, 0, [])).2.2.2,
      (batch.foldl (scanFoldStep store) ([], 0, 0, [])).1⟩
  else none

/-- The matched entries of a batch, in batch order, paired with their
store records. -/
def matchedEntries (store : UTXOGlobalIndex → Option PrivacyDBStore)
    (batch : List UTXOGlobalIndex) : List (UTXOGlobalIndex × PrivacyDBStore) :=
  batch.filterMap (fun g => (store g).map (fun r => (g, r)))

/-- Master invariant of the flush fold: the accumulated UTXO list is
the initial one extended by every matched entry, and the key triple is
that of the LAST matched entry (or unchanged if nothing matched). -/
theorem scanFold_spec (store : UTXOGlobalIndex → Option PrivacyDBStore) :
    ∀ (batch : List UTXOGlobalIndex) (acc : List UTXO × ℕ × ℕ × List ℕ),
      (batch.foldl (scanFoldStep store) acc).1
          = acc.1 ++ (matchedEntries store batch).map
            (fun p => ⟨p.2.amount, ⟨p.1, p.2.onetimePublicKey⟩⟩) ∧
        (batch.foldl (scanFoldStep store) acc).2
          = ((matchedEntries store batch).getLast?).elim acc.2
            (fun p => (p.2.owner, p.2.tokenname, p.2.txhash)) := by
  intro batch
  induction batch with
  | nil =>
      intro acc
      simp [matchedEntries]
  | cons g rest ih =>
      intro acc
      rw [List.foldl_cons]
      cases hg : store g with
      | none =>
          have hstep : scanFoldStep store acc g = acc := by
            unfold scanFoldStep
            rw [hg]
          have hmatch : matchedEntries store (g :: rest)
              = matchedEntries store rest := by
            unfold matchedEntries
            rw [List.filterMap_cons, hg]
            rfl
          rw [hstep, hmatch]
          exact ih acc
      | some r =>
          have hstep : scanFoldStep store acc g
              = (acc.1 ++ [⟨r.amount, ⟨g, r.onetimePublicKey⟩⟩],
                r.owner, r.tokenname, r.txhash) := by
            unfold scanFoldStep
            rw [hg]
          have hmatch : matchedEntries store (g :: rest)
              = (g, r) :: matchedEntries store rest := by
            unfold matchedEntries
            rw [List.filterMap_cons, hg]
            rfl
          rw [hstep, hmatch]
          obtain ⟨ih1, ih2⟩ := ih (acc.1 ++ [⟨r.amount, ⟨g, r.onetimePublicKey⟩⟩],
            r.owner, r.tokenname, r.txhash)
          constructor
          · rw [ih1]
            simp [List.append_assoc]
          · rw [ih2]
            cases hrest : (matchedEntries store rest).getLast? with
            | none =>
                have : matchedEntries store rest = [] :=
                  List.getLast?_eq_none_iff.mp hrest
                rw [this]
                rfl
            | some q =>
                have hne : matchedEntries store rest ≠ [] := by
                  intro h
                  rw [h] at hrest
                  simp at hrest
                have hcc : ((g, r) :: matchedEntries store rest).getLast?
                    = (matchedEntries store rest).getLast? := by
                  match hm : matchedEntries store rest with
                  | [] => exact absurd hm hne
                  | x :: xs => exact List.getLast?_cons_cons
                rw [hcc, hrest]
                rfl

/-- C10: when a flush batch has at least one matched UTXO, the whole
batch is promoted by a SINGLE `moveUTXO2STXO` call whose UTXO list
contains every matched UTXO of the batch — whatever mix of owners,
tokens and transactions they belong to — and whose `(owner, token,
txhash)` key is copied from the LAST matched entry's store record
alone. -/
theorem scan_flush_single_move_last_key
    (store : UTXOGlobalIndex → Option PrivacyDBStore)
    (batch : List UTXOGlobalIndex) (p : UTXOGlobalIndex) (r : PrivacyDBStore)
    (hlast : (matchedEntries store batch).getLast? = some (p, r)) :
    deleteScanBatch store batch = some ⟨r.owner, r.tokenname, r.txhash,
      (matchedEntries store batch).map
        (fun q => ⟨q.2.amount, ⟨q.1, q.2.onetimePublicKey⟩⟩)⟩ := by
  obtain ⟨h1, h2⟩ := scanFold_spec store batch ([], 0, 0, [])
  have hne : matchedEntries store batch ≠ [] := by
    intro h
    rw [h] at hlast
    simp at hlast
  have hmapne : (matchedEntries store batch).map
      (fun q => (⟨q.2.amount, ⟨q.1, q.2.onetimePublicKey⟩⟩ : UTXO)) ≠ [] := by
    intro h
    exact hne (List.map_eq_nil_iff.mp h)
  unfold deleteScanBatch
  rw [h1, h2, hlast]
  simp only [List.nil_append]
  rw [if_pos hmapne]
  rfl

/-- Witness for C10: a batch matching two UTXOs owned by DIFFERENT
owners (1 and 2) with different tokens and creating transactions; the
single emitted call carries both UTXOs under the key of the last
matched entry (owner 2). -/
theorem scan_flush_single_move_last_key_witness :
    ((matchedEntries
        (fun g => if g.outindex = 0 then some ⟨100, 1, 7, [1], [10]⟩
          else if g.outindex = 1 then some ⟨200, 2, 8, [2], [11]⟩
          else none)
        [⟨[], 0⟩, ⟨[], 5⟩, ⟨[], 1⟩]).getLast?
      = some (⟨[], 1⟩, ⟨200, 2, 8, [2], [11]⟩)) ∧
    deleteScanBatch
        (fun g => if g.outindex = 0 then some ⟨100, 1, 7, [1], [10]⟩
          else if g.outindex = 1 then some ⟨200, 2, 8, [2], [11]⟩
          else none)
        [⟨[], 0⟩, ⟨[], 5⟩, ⟨[], 1⟩]
      = some ⟨2, 8, [2],
        (matchedEntries
          (fun g => if g.outindex = 0 then some ⟨100, 1, 7, [1], [10]⟩
            else if g.outindex = 1 then some ⟨200, 2, 8, [2], [11]⟩
            else none)
          [⟨[], 0⟩, ⟨[], 5⟩, ⟨[], 1⟩]).map
          (fun q => ⟨q.2.amount, ⟨q.1, q.2.onetimePublicKey⟩⟩)⟩ :=
  ⟨by decide, scan_flush_single_move_last_key _ _ ⟨[], 1⟩ ⟨200, 2, 8, [2], [11]⟩
    (by decide)⟩
